import Mathlib

/-!
Verification of the MLR-MissionControl cluster orchestration engine.

Shallow embedding of the Python sources:
- `backend/app/services/job_monitor.py`  (status normalization, status query, submission)
- `backend/app/services/job_poller.py`   (reconciler tick guard, per-job check)
- `backend/app/core/ssh_manager.py`      (remote command execution)
- `backend/app/api/jobs.py`              (URL rewrite, submission caller, refresh endpoint)
- `scripts/check_gpu_availability.py`    (GRES parsing, GPU inventory)

Python strings are modelled as Lean `String` or `List Char`; Python dicts
(insertion ordered) as association lists; machine integers as `Nat`/`Int`;
fallible operations as `Except`.
-/

namespace MissionControl

/-! ### Python string primitives -/

/-- Python `str.isspace` default whitespace set used by `str.strip()`. -/
def pyIsSpace (c : Char) : Bool :=
  c = ' ' || c = '\t' || c = '\n' || c = '\r' || c = '\x0b' || c = '\x0c'

/-- Python `str.strip()` on a character list. -/
def pyStripList (l : List Char) : List Char :=
  ((l.dropWhile pyIsSpace).reverse.dropWhile pyIsSpace).reverse

/-- Python `str.strip()`. -/
def pyStrip (s : String) : String :=
  ⟨pyStripList s.data⟩

/-- Python `str.upper()` (ASCII case mapping, as used on SLURM status codes). -/
def pyUpper (s : String) : String :=
  ⟨s.data.map Char.toUpper⟩

/-- Python `str.lower()` (ASCII case mapping, as used on GPU model names). -/
def pyLower (s : String) : String :=
  ⟨s.data.map Char.toLower⟩

/-- Python `int()` on a string of decimal digits. -/
def natOfDigits (l : List Char) : Nat :=
  l.foldl (fun a c => 10 * a + (c.toNat - 48)) 0

/-- Decimal rendering of a natural number, with explicit fuel (the fuel is
adequate whenever `n < fuel`). -/
def natToDigitsAux : Nat → Nat → List Char
  | 0, _ => []
  | fuel + 1, n =>
    if n < 10 then [Char.ofNat (48 + n)]
    else natToDigitsAux fuel (n / 10) ++ [Char.ofNat (48 + n % 10)]

/-- Decimal rendering of a natural number (digit characters, most significant first). -/
def natToDigits (n : Nat) : List Char :=
  natToDigitsAux (n + 1) n

theorem natOfDigits_append_singleton (a : List Char) (c : Char) :
    natOfDigits (a ++ [c]) = 10 * natOfDigits a + (c.toNat - 48) := by
  simp [natOfDigits, List.foldl_append]

theorem natToDigitsAux_spec :
    ∀ (fuel n : Nat), n < fuel →
      (∀ c ∈ natToDigitsAux fuel n, c.isDigit = true) ∧
      natToDigitsAux fuel n ≠ [] ∧
      natOfDigits (natToDigitsAux fuel n) = n ∧
      (':' : Char) ∉ natToDigitsAux fuel n := by
  intro fuel
  induction fuel with
  | zero => intro n h; omega
  | succ fuel ih =>
    intro n h
    rw [natToDigitsAux]
    by_cases h10 : n < 10
    · rw [if_pos h10]
      interval_cases n <;> exact ⟨by decide, by decide, by decide, by decide⟩
    · rw [if_neg h10]
      have hdiv : n / 10 < fuel := by
        have h1 : n / 10 < n := Nat.div_lt_self (by omega) (by omega)
        omega
      obtain ⟨ihd, ihne, ihval, ihcolon⟩ := ih (n / 10) hdiv
      have hk : n % 10 < 10 := Nat.mod_lt _ (by omega)
      have hchar : (Char.ofNat (48 + n % 10)).toNat = 48 + n % 10 ∧
          (Char.ofNat (48 + n % 10)).isDigit = true ∧
          Char.ofNat (48 + n % 10) ≠ ':' := by
        revert hk
        generalize n % 10 = k
        intro hk
        interval_cases k <;> exact ⟨by decide, by decide, by decide⟩
      refine ⟨?_, ?_, ?_, ?_⟩
      · intro c hc
        rcases List.mem_append.mp hc with hc | hc
        · exact ihd c hc
        · simp only [List.mem_singleton] at hc
          subst hc
          exact hchar.2.1
      · intro hemp
        exact ihne (List.append_eq_nil.mp hemp).1
      · rw [natOfDigits_append_singleton, ihval, hchar.1]
        omega
      · intro hmem
        rcases List.mem_append.mp hmem with hmem | hmem
        · exact ihcolon hmem
        · simp only [List.mem_singleton] at hmem
          exact hchar.2.2 hmem.symm

theorem natToDigits_spec (n : Nat) :
    (∀ c ∈ natToDigits n, c.isDigit = true) ∧ natToDigits n ≠ [] ∧
    natOfDigits (natToDigits n) = n ∧ (':' : Char) ∉ natToDigits n :=
  natToDigitsAux_spec (n + 1) n (by omega)

theorem takeWhile_all {p : Char → Bool} :
    ∀ {l : List Char}, (∀ c ∈ l, p c = true) → l.takeWhile p = l := by
  intro l
  induction l with
  | nil => intro _; rfl
  | cons c rest ih =>
    intro h
    have hc := h c (List.mem_cons_self c rest)
    have hr := ih (fun x hx => h x (List.mem_cons_of_mem c hx))
    simp [List.takeWhile_cons, hc, hr]

theorem dropWhile_all {p : Char → Bool} :
    ∀ {l : List Char}, (∀ c ∈ l, p c = true) → l.dropWhile p = [] := by
  intro l
  induction l with
  | nil => intro _; rfl
  | cons c rest ih =>
    intro h
    simp only [List.dropWhile_cons, h c (List.mem_cons_self c rest)]
    exact ih (fun x hx => h x (List.mem_cons_of_mem c hx))

theorem takeWhile_append_stop {p : Char → Bool} {a : List Char}
    (ha : ∀ c ∈ a, p c = true) {d : Char} (hd : p d = false) (b : List Char) :
    (a ++ d :: b).takeWhile p = a ∧ (a ++ d :: b).dropWhile p = d :: b := by
  induction a with
  | nil => simp [List.takeWhile_cons, List.dropWhile_cons, hd]
  | cons c rest ih =>
    have hc : p c = true := ha c (List.mem_cons_self c rest)
    have hrest := ih (fun x hx => ha x (List.mem_cons_of_mem c hx))
    constructor
    · simp [List.cons_append, List.takeWhile_cons, hc, hrest.1]
    · simp [List.cons_append, List.dropWhile_cons, hc, hrest.2]

/-! ### Python dictionaries as insertion-ordered association lists -/

/-- `d.get(k, 0)` / `defaultdict(int)` read. -/
def dictGet : List (String × Nat) → String → Nat
  | [], _ => 0
  | p :: rest, k => if p.1 = k then p.2 else dictGet rest k

/-- `d[k] = v`: update in place, else append (insertion order preserved). -/
def dictSet : List (String × Nat) → String → Nat → List (String × Nat)
  | [], k, v => [(k, v)]
  | p :: rest, k, v => if p.1 = k then (k, v) :: rest else p :: dictSet rest k v

/-- `d[k] += v` on a `defaultdict(int)`. -/
def dictAdd (d : List (String × Nat)) (k : String) (v : Nat) : List (String × Nat) :=
  dictSet d k (dictGet d k + v)

/-- `del d[k]` (keys are unique in actual dicts; removes the first hit). -/
def dictDel : List (String × Nat) → String → List (String × Nat)
  | [], _ => []
  | p :: rest, k => if p.1 = k then rest else p :: dictDel rest k

theorem dictGet_not_mem : ∀ {d : List (String × Nat)} {k : String},
    k ∉ d.map Prod.fst → dictGet d k = 0 := by
  intro d
  induction d with
  | nil => intro k _; rfl
  | cons p rest ih =>
    intro k h
    simp only [List.map_cons, List.mem_cons] at h
    push_neg at h
    rw [dictGet, if_neg (fun hh => h.1 hh.symm)]
    exact ih h.2

theorem dictSet_not_mem : ∀ {d : List (String × Nat)} {k : String} (v : Nat),
    k ∉ d.map Prod.fst → dictSet d k v = d ++ [(k, v)] := by
  intro d
  induction d with
  | nil => intro k v _; rfl
  | cons p rest ih =>
    intro k v h
    simp only [List.map_cons, List.mem_cons] at h
    push_neg at h
    rw [dictSet, if_neg (fun hh => h.1 hh.symm), ih v h.2]
    rfl

theorem dictGet_of_mem_nodup : ∀ {d : List (String × Nat)} {k : String} {v : Nat},
    (d.map Prod.fst).Nodup → (k, v) ∈ d → dictGet d k = v := by
  intro d
  induction d with
  | nil => intro k v _ h; cases h
  | cons p rest ih =>
    intro k v hnd hmem
    simp only [List.map_cons, List.nodup_cons] at hnd
    rcases List.mem_cons.mp hmem with h | h
    · subst h
      rw [dictGet, if_pos rfl]
    · have hne : p.1 ≠ k := by
        intro he
        exact hnd.1 (he ▸ (List.mem_map.mpr ⟨(k, v), h, rfl⟩))
      rw [dictGet, if_neg hne]
      exact ih hnd.2 h

/-! ### `JobMonitor._normalize_status` (job_monitor.py lines 177-202) -/

/-- The five-element simplified status enumeration of the spec. -/
def fiveStatuses : List String :=
  ["PENDING", "RUNNING", "COMPLETED", "FAILED", "CANCELLED"]

/-- The native SLURM codes appearing in the fixed mapping table. -/
def mappedCodes : List String :=
  ["PENDING", "CONFIGURING", "RUNNING", "COMPLETED",
   "FAILED", "TIMEOUT", "OUT_OF_MEMORY", "NODE_FAIL",
   "CANCELLED", "CANCELED"]

/-- `JobMonitor._normalize_status`: uppercases, then maps through the fixed table,
returning the (uppercased) input for unmapped codes. -/
def normalize_status (status : String) : String :=
  if pyUpper status ∈ (["PENDING", "CONFIGURING"] : List String) then "PENDING"
  else if pyUpper status ∈ (["RUNNING"] : List String) then "RUNNING"
  else if pyUpper status ∈ (["COMPLETED"] : List String) then "COMPLETED"
  else if pyUpper status ∈ (["FAILED", "TIMEOUT", "OUT_OF_MEMORY", "NODE_FAIL"] : List String) then "FAILED"
  else if pyUpper status ∈ (["CANCELLED", "CANCELED"] : List String) then "CANCELLED"
  else pyUpper status

/-- C1 counterexample: the lowercase code `"oom"` is outside the mapping table,
yet normalization does not return it unchanged (it uppercases it to `"OOM"`). -/
theorem normalize_status_not_identity_on_unmapped :
    "oom" ∉ mappedCodes ∧ normalize_status "oom" ≠ "oom" := by
  constructor
  · decide
  · decide

/-- C1 (amended): for every code whose uppercasing lies in the mapping table,
normalization returns one of the five enumerated statuses; for every other code
it returns the uppercased input (hence the input unchanged exactly when the
input is already uppercase). -/
theorem normalize_status_spec (status : String) :
    (pyUpper status ∈ mappedCodes → normalize_status status ∈ fiveStatuses) ∧
    (pyUpper status ∉ mappedCodes → normalize_status status = pyUpper status) := by
  constructor
  · intro hmem
    simp only [mappedCodes, List.mem_cons, List.not_mem_nil, or_false] at hmem
    unfold normalize_status
    rcases hmem with h | h | h | h | h | h | h | h | h | h <;> rw [h] <;> decide
  · intro hmem
    unfold normalize_status
    split_ifs with h1 h2 h3 h4 h5
    · simp only [List.mem_cons, List.not_mem_nil, or_false] at h1
      rcases h1 with h | h <;> rw [h] at hmem <;> exact absurd (by decide) hmem
    · simp only [List.mem_cons, List.not_mem_nil, or_false] at h2
      rw [h2] at hmem
      exact absurd (by decide) hmem
    · simp only [List.mem_cons, List.not_mem_nil, or_false] at h3
      rw [h3] at hmem
      exact absurd (by decide) hmem
    · simp only [List.mem_cons, List.not_mem_nil, or_false] at h4
      rcases h4 with h | h | h | h <;> rw [h] at hmem <;> exact absurd (by decide) hmem
    · simp only [List.mem_cons, List.not_mem_nil, or_false] at h5
      rcases h5 with h | h <;> rw [h] at hmem <;> exact absurd (by decide) hmem
    · rfl

/-- C1 witness: instantiating the amended statement at the mapped code
`"TIMEOUT"` yields one of the five statuses. -/
theorem normalize_status_spec_witness :
    pyUpper "TIMEOUT" ∈ mappedCodes ∧ normalize_status "TIMEOUT" ∈ fiveStatuses :=
  ⟨by decide, (normalize_status_spec "TIMEOUT").1 (by decide)⟩

/-! ### Splitting helpers (Python `str.split`) -/

/-- Split at the first occurrence of `sep`: `some (before, after)`, or `none`
when `sep` does not occur. -/
def splitOnce (sep : Char) : List Char → Option (List Char × List Char)
  | [] => none
  | c :: rest =>
    if c = sep then some ([], rest)
    else
      match splitOnce sep rest with
      | none => none
      | some (a, b) => some (c :: a, b)

theorem splitOnce_length {sep : Char} :
    ∀ {l a b : List Char}, splitOnce sep l = some (a, b) → b.length < l.length := by
  intro l
  induction l with
  | nil => intro a b h; simp [splitOnce] at h
  | cons c rest ih =>
    intro a b h
    simp only [splitOnce] at h
    split at h
    · cases h
      simp
    · cases hr : splitOnce sep rest with
      | none => rw [hr] at h; cases h
      | some p =>
        rw [hr] at h
        cases h
        have := ih hr
        simp only [List.length_cons]
        omega

/-- Python `str.split(sep)` with a single-character separator: always returns at
least one piece; empty pieces are kept. -/
def pySplitAll (sep : Char) (l : List Char) : List (List Char) :=
  match h : splitOnce sep l with
  | none => [l]
  | some (a, b) => a :: pySplitAll sep b
termination_by l.length
decreasing_by
  exact splitOnce_length h

/-! ### `SSHManager.execute_command` (ssh_manager.py lines 43-63) and its call
sites in `JobMonitor` (job_monitor.py lines 34, 42, 73-77, 164).

The remote side is modelled as an oracle `sshExec : String → String × String × Int`
mapping a command line to `(stdout, stderr, exit_code)`. -/

/-- The parameter names of `SSHManager.execute_command` beyond `self`,
read off the `def execute_command(self, command: str)` signature. -/
def execute_command_params : List String := ["command"]

/-- The keyword-argument names `JobMonitor` passes to `execute_command`
in `get_job_status` and `submit_job` (`use_login_shell=...`). -/
def job_monitor_call_kwargs : List String := ["use_login_shell"]

/-- Python call binding for keyword arguments: a keyword that is not a declared
parameter name raises `TypeError`. -/
def acceptsKeywords (params kwargs : List String) : Except String Unit :=
  if kwargs.all (fun k => params.contains k) then Except.ok ()
  else Except.error "TypeError: execute_command() got an unexpected keyword argument"

/-- The body of `execute_command`: sends the command string to the channel
verbatim — no login-shell wrapping appears anywhere in the function. -/
def execute_command (sshExec : String → String × String × Int) (command : String) :
    String × String × Int :=
  sshExec command

/-- A `JobMonitor`-style call to `execute_command`: Python binds the keyword
arguments against the parameter list before the body runs. -/
def execute_command_call (kwargs : List String) (sshExec : String → String × String × Int)
    (command : String) : Except String (String × String × Int) :=
  match acceptsKeywords execute_command_params kwargs with
  | Except.ok () => Except.ok (execute_command sshExec command)
  | Except.error e => Except.error e

/-- C4 (code bug): `execute_command` accepts only the parameter `command`, so
every `JobMonitor` call — which passes `use_login_shell=` — raises `TypeError`
instead of executing the command, and the body never wraps the command for a
login shell (it forwards the command string verbatim). -/
theorem execute_command_login_shell_bug :
    (∀ (sshExec : String → String × String × Int) (command : String),
      execute_command_call job_monitor_call_kwargs sshExec command =
        Except.error "TypeError: execute_command() got an unexpected keyword argument") ∧
    (∀ (sshExec : String → String × String × Int) (command : String),
      execute_command sshExec command = sshExec command) :=
  ⟨fun _ _ => rfl, fun _ _ => rfl⟩

/-! ### `JobMonitor.get_job_status` (job_monitor.py lines 21-50)

The function is translated against the session interface of spec §4.1 (the
`self.ssh` collaborator executing one command and returning
`(stdout, stderr, exit_code)`); the result additionally carries the trace of
remote commands issued, in order. -/

/-- The squeue command built at job_monitor.py line 33. -/
def squeue_cmd (slurm_job_id : String) : String :=
  "squeue -j " ++ slurm_job_id ++ " -h -o \x27%T\x27"

/-- The sacct command built at job_monitor.py line 41. -/
def sacct_cmd (slurm_job_id : String) : String :=
  "sacct -j " ++ slurm_job_id ++ " -n -o State --parsable2"

/-- Python truthiness test `exit_code == 0 and stdout.strip()` used at
job_monitor.py lines 36 and 44. -/
def usableOutput (r : String × String × Int) : Bool :=
  r.2.2 == 0 && pyStrip r.1 != ""

/-- `JobMonitor.get_job_status`, returning the `(status, reason)` pair together
with the list of remote commands issued. -/
def get_job_status (sshExec : String → String × String × Int) (slurm_job_id : String) :
    (String × Option String) × List String :=
  let r1 := sshExec (squeue_cmd slurm_job_id)
  if usableOutput r1 then
    ((normalize_status (pyStrip r1.1), none), [squeue_cmd slurm_job_id])
  else
    let r2 := sshExec (sacct_cmd slurm_job_id)
    if usableOutput r2 then
      let lines := pySplitAll '\n' (pyStrip r2.1).data
      let status := match lines with
                    | [] => "UNKNOWN"
                    | l :: _ => (⟨l⟩ : String)
      ((normalize_status status, none), [squeue_cmd slurm_job_id, sacct_cmd slurm_job_id])
    else
      (("UNKNOWN", some "Job not found in squeue or sacct"),
       [squeue_cmd slurm_job_id, sacct_cmd slurm_job_id])

/-- C2: the status query issues squeue first; sacct is issued exactly when the
squeue result is unusable (non-zero exit or blank output); when both results
are unusable the status is `UNKNOWN`. -/
theorem get_job_status_query_order (sshExec : String → String × String × Int)
    (jid : String) :
    ((get_job_status sshExec jid).2.head? = some (squeue_cmd jid)) ∧
    (usableOutput (sshExec (squeue_cmd jid)) = true →
      (get_job_status sshExec jid).2 = [squeue_cmd jid]) ∧
    (usableOutput (sshExec (squeue_cmd jid)) = false →
      (get_job_status sshExec jid).2 = [squeue_cmd jid, sacct_cmd jid]) ∧
    (usableOutput (sshExec (squeue_cmd jid)) = false →
      usableOutput (sshExec (sacct_cmd jid)) = false →
      (get_job_status sshExec jid).1 = ("UNKNOWN", some "Job not found in squeue or sacct")) := by
  unfold get_job_status
  cases h1 : usableOutput (sshExec (squeue_cmd jid)) with
  | true => simp [h1]
  | false =>
    cases h2 : usableOutput (sshExec (sacct_cmd jid)) with
    | true => simp [h1, h2]
    | false => simp [h1, h2]

/-- An oracle for which every remote command fails (exit code 1, no output). -/
def sshExecDown : String → String × String × Int := fun _ => ("", "", 1)

/-- C2 witness: with every query failing, both commands are issued in order and
the result is `UNKNOWN`. -/
theorem get_job_status_query_order_witness :
    (get_job_status sshExecDown "42").2 = [squeue_cmd "42", sacct_cmd "42"] ∧
    (get_job_status sshExecDown "42").1 = ("UNKNOWN", some "Job not found in squeue or sacct") := by
  have h := get_job_status_query_order sshExecDown "42"
  exact ⟨h.2.2.1 rfl, h.2.2.2 rfl rfl⟩

/-! ### The 2-vs-3 unpacking mismatch (job_poller.py line 125, jobs.py line 501) -/

/-- A Python runtime value appearing in `get_job_status`'s returned tuple. -/
inductive PyVal where
  | pyStr (s : String)
  | pyNone
deriving DecidableEq

/-- The Python 2-tuple `(status, reason)` that every return site of
`get_job_status` produces, as a runtime tuple. -/
def statusPair (p : String × Option String) : List PyVal :=
  [PyVal.pyStr p.1, match p.2 with
                    | some r => PyVal.pyStr r
                    | none => PyVal.pyNone]

/-- Python tuple unpacking `a, b, c = t`: raises `ValueError` unless `t` has
exactly three elements. -/
def unpack3 (t : List PyVal) : Except String (PyVal × PyVal × PyVal) :=
  match t with
  | [a, b, c] => Except.ok (a, b, c)
  | _ => Except.error "ValueError: not enough values to unpack (expected 3, got 2)"

theorem unpack3_statusPair (p : String × Option String) :
    unpack3 (statusPair p) =
      Except.error "ValueError: not enough values to unpack (expected 3, got 2)" := by
  rcases p with ⟨s, _ | r⟩ <;> rfl

/-- The job-record fields the reconciler and the refresh endpoint write. -/
structure JobRec where
  id : String
  name : String
  slurm_job_id : String
  slurm_status : String
  runtime_seconds : Option Nat
  wandb_run_url : Option String
  error_message : Option String
deriving DecidableEq

/-- String content of a `PyVal` (used only in unreachable update code). -/
def pyValString : PyVal → String
  | PyVal.pyStr s => s
  | PyVal.pyNone => ""

/-- The per-job body of `JobStatusPoller._poll_cluster_jobs` (lines 123-147):
the three-variable unpacking of `get_job_status`'s pair, with the per-job
`try/except` that catches the resulting `ValueError` and leaves the job as it
was. The `.ok` branch sketches the (unreachable) update code at lines 127-137. -/
def poll_job_check (sshExec : String → String × String × Int) (job : JobRec) : JobRec :=
  match unpack3 (statusPair (get_job_status sshExec job.slurm_job_id).1) with
  | Except.ok (st, _, rt) =>
    let job1 := if pyValString st ≠ job.slurm_status
                then { job with slurm_status := pyValString st } else job
    match rt with
    | PyVal.pyStr _ => job1
    | PyVal.pyNone => job1
  | Except.error _ => job

/-- The body of the `refresh_job_status` endpoint (jobs.py lines 498-513): the
same three-variable unpacking; the `ValueError` propagates to the endpoint
wrapper (HTTP 500) before any job field is written. -/
def refresh_job_status (sshExec : String → String × String × Int) (job : JobRec) :
    Except String (JobRec × String) :=
  match unpack3 (statusPair (get_job_status sshExec job.slurm_job_id).1) with
  | Except.ok (st, _, _) =>
    Except.ok ({ job with slurm_status := pyValString st }, "Status updated")
  | Except.error e => Except.error e

/-- C5: `get_job_status` always returns a 2-tuple, the callers unpack it into
three variables, so every status check raises `ValueError`; the reconciler
catches it per job and leaves the job record unchanged, and the refresh
endpoint propagates it without writing any job field. -/
theorem get_job_status_arity_mismatch (sshExec : String → String × String × Int)
    (job : JobRec) :
    (statusPair (get_job_status sshExec job.slurm_job_id).1).length = 2 ∧
    unpack3 (statusPair (get_job_status sshExec job.slurm_job_id).1) =
      Except.error "ValueError: not enough values to unpack (expected 3, got 2)" ∧
    poll_job_check sshExec job = job ∧
    refresh_job_status sshExec job =
      Except.error "ValueError: not enough values to unpack (expected 3, got 2)" := by
  refine ⟨rfl, unpack3_statusPair _, ?_, ?_⟩
  · unfold poll_job_check
    rw [unpack3_statusPair]
  · unfold refresh_job_status
    rw [unpack3_statusPair]

/-! ### `JobStatusPoller.poll_all_jobs` (job_poller.py lines 26-85)

The tick body (lines 42-77: DB fetch, grouping, per-cluster polling, commit) is
abstracted as `body`, returning the issued remote commands together with either
the updated job list or an exception; `poll_all_jobs` adds the re-entrancy
guard (line 36), the `except` that logs (line 82), and the `finally` that
clears the flag (line 85). -/

structure PollerState where
  running : Bool
  jobs : List JobRec
deriving DecidableEq

def poll_all_jobs (body : List JobRec → List String × Except String (List JobRec))
    (s : PollerState) : PollerState × List String :=
  if s.running then (s, [])
  else
    match body s.jobs with
    | (cmds, Except.ok jobs2) => ({ running := false, jobs := jobs2 }, cmds)
    | (cmds, Except.error _) => ({ running := false, jobs := s.jobs }, cmds)

/-- C3: a tick invoked while the in-progress flag is set issues zero remote
commands and leaves every job unchanged; a tick that does run clears the flag
on every exit path, error exits included. -/
theorem poll_all_jobs_guard (body : List JobRec → List String × Except String (List JobRec))
    (s : PollerState) :
    (s.running = true → poll_all_jobs body s = (s, [])) ∧
    (s.running = false → (poll_all_jobs body s).1.running = false) := by
  constructor
  · intro h
    unfold poll_all_jobs
    simp [h]
  · intro h
    unfold poll_all_jobs
    simp only [h, if_neg Bool.false_ne_true]
    rcases body s.jobs with ⟨cmds, _ | jobs2⟩ <;> simp

/-- C3 witness: a skipped tick on a busy poller, and a failing tick clearing
the flag. -/
theorem poll_all_jobs_guard_witness :
    poll_all_jobs (fun js => (["squeue -j 1 -h"], Except.ok js))
      { running := true, jobs := [] } = ({ running := true, jobs := [] }, []) ∧
    (poll_all_jobs (fun _ => ([], Except.error "ConnectionError"))
      { running := false, jobs := [] }).1.running = false := by
  have h1 := poll_all_jobs_guard (fun js => (["squeue -j 1 -h"], Except.ok js))
    { running := true, jobs := [] }
  have h2 := poll_all_jobs_guard (fun _ => ([], Except.error "ConnectionError"))
    { running := false, jobs := [] }
  exact ⟨h1.1 rfl, h2.2 rfl⟩

/-! ### `convert_https_to_ssh_url` (jobs.py lines 76-109) -/

/-- Whether `pat` occurs as a contiguous substring of `l`. -/
def occursIn (pat l : List Char) : Bool :=
  l.tails.any (fun t => pat.isPrefixOf t)

theorem isPrefixOfE {l₁ l₂ : List Char} : l₁.isPrefixOf l₂ = true ↔ l₁ <+: l₂ :=
  List.isPrefixOf_iff_prefix

/-- Python `str.replace(pat, "")` for a non-empty `pat`: removes every
non-overlapping occurrence, scanning left to right. -/
def removeAll (pat : List Char) : List Char → List Char
  | [] => []
  | c :: rest =>
    if h : pat ≠ [] ∧ pat.isPrefixOf (c :: rest) = true
    then removeAll pat ((c :: rest).drop pat.length)
    else c :: removeAll pat rest
termination_by l => l.length
decreasing_by
  · have hlen : 0 < pat.length := List.length_pos.mpr h.1
    simp only [List.length_drop, List.length_cons]
    omega
  · simp

theorem occursIn_cons (pat : List Char) (c : Char) (rest : List Char) :
    occursIn pat (c :: rest) = (pat.isPrefixOf (c :: rest) || occursIn pat rest) := by
  simp [occursIn, List.tails_cons]

theorem removeAll_of_not_occurs {pat : List Char} :
    ∀ {l : List Char}, occursIn pat l = false → removeAll pat l = l := by
  intro l
  induction l with
  | nil => intro _; rw [removeAll]
  | cons c rest ih =>
    intro h
    rw [occursIn_cons, Bool.or_eq_false_iff] at h
    rw [removeAll]
    rw [dif_neg (by simp [h.1])]
    rw [ih h.2]

theorem removeAll_append_self {pat : List Char} (hne : pat ≠ []) (rest : List Char) :
    removeAll pat (pat ++ rest) = removeAll pat rest := by
  cases hp : pat with
  | nil => exact absurd hp hne
  | cons p pt =>
    rw [← hp]
    have hcons : pat ++ rest = p :: (pt ++ rest) := by rw [hp]; rfl
    rw [hcons, removeAll]
    rw [dif_pos ⟨hne, by rw [← hcons]; exact isPrefixOfE.mpr (List.prefix_append pat rest)⟩]
    rw [← hcons, List.drop_left pat rest]

theorem splitOnce_append {sep : Char} :
    ∀ {a : List Char}, sep ∉ a → ∀ b, splitOnce sep (a ++ sep :: b) = some (a, b) := by
  intro a
  induction a with
  | nil => intro _ b; simp [splitOnce]
  | cons c ct ih =>
    intro h b
    have hc : ¬ c = sep := fun hh => h (hh ▸ List.mem_cons_self c ct)
    have hct : sep ∉ ct := fun hh => h (List.mem_cons_of_mem c hh)
    simp only [List.cons_append, splitOnce, if_neg hc, List.append_eq, ih hct b]

/-- `convert_https_to_ssh_url` on the character level: empty and `git@`-led
URLs pass through; an `https://`-led URL has all `https://` occurrences
removed, is split at the first `/`, gets `.git` appended when missing, and is
reassembled as `git@domain:path`; when no `/` remains the (stripped) URL is
returned. -/
def convertCore (u : List Char) : List Char :=
  if u = [] then u
  else if "git@".data.isPrefixOf u then u
  else if "https://".data.isPrefixOf u then
    let stripped := removeAll "https://".data u
    match splitOnce '/' stripped with
    | some (domain, path) =>
      "git@".data ++ domain ++ ':' ::
        (if ".git".data.isSuffixOf path then path else path ++ ".git".data)
    | none => stripped
  else u

/-- `convert_https_to_ssh_url` (jobs.py lines 76-109). -/
def convert_https_to_ssh_url (url : String) : String :=
  ⟨convertCore url.data⟩

theorem convertCore_https (hostL pathL : List Char)
    (hs : ('/' : Char) ∉ hostL)
    (ho : occursIn "https://".data (hostL ++ '/' :: pathL) = false) :
    convertCore ("https://".data ++ (hostL ++ '/' :: pathL)) =
      "git@".data ++ hostL ++ ':' ::
        (if ".git".data.isSuffixOf pathL then pathL else pathL ++ ".git".data) := by
  unfold convertCore
  rw [if_neg (by simp)]
  rw [if_neg (by simp [List.isPrefixOf])]
  rw [if_pos (isPrefixOfE.mpr (List.prefix_append _ _))]
  rw [removeAll_append_self (by decide), removeAll_of_not_occurs ho]
  simp only [splitOnce_append hs pathL]

/-- C9: `https://host/org/repo` becomes `git@host:org/repo.git` (`.git`
appended when missing, kept when present — the suffix test is on the whole
`org/repo` path, as in the code); URLs already in SSH form and empty URLs are
returned unchanged. The side conditions say the host contains no `/` and the
URL contains no further occurrence of `https://`. -/
theorem convert_https_to_ssh_url_spec (host org repo : String)
    (hs : ('/' : Char) ∉ host.data)
    (ho : occursIn "https://".data (host ++ "/" ++ org ++ "/" ++ repo).data = false) :
    convert_https_to_ssh_url ("https://" ++ host ++ "/" ++ org ++ "/" ++ repo) =
      "git@" ++ host ++ ":" ++
        (if ".git".data.isSuffixOf (org ++ "/" ++ repo).data
         then org ++ "/" ++ repo else org ++ "/" ++ repo ++ ".git") ∧
    (∀ u : String, "git@".data.isPrefixOf u.data = true → convert_https_to_ssh_url u = u) ∧
    convert_https_to_ssh_url "" = "" := by
  refine ⟨?_, ?_, rfl⟩
  · have htail : (host ++ "/" ++ org ++ "/" ++ repo).data
        = host.data ++ '/' :: (org.data ++ '/' :: repo.data) := by
      simp [String.data_append]
    have hpath : (org ++ "/" ++ repo).data = org.data ++ '/' :: repo.data := by
      simp [String.data_append]
    have hdata : ("https://" ++ host ++ "/" ++ org ++ "/" ++ repo).data
        = "https://".data ++ (host.data ++ '/' :: (org.data ++ '/' :: repo.data)) := by
      simp [String.data_append]
    rw [htail] at ho
    unfold convert_https_to_ssh_url
    rw [hdata, convertCore_https host.data (org.data ++ '/' :: repo.data) hs ho, hpath]
    by_cases hg : ".git".data.isSuffixOf (org.data ++ '/' :: repo.data) = true
    · rw [if_pos hg, if_pos hg]
      have : "git@".data ++ host.data ++ ':' :: (org.data ++ '/' :: repo.data)
          = ("git@" ++ host ++ ":" ++ (org ++ "/" ++ repo)).data := by
        simp [String.data_append]
      rw [this]
    · rw [if_neg hg, if_neg hg]
      have : "git@".data ++ host.data ++ ':' :: ((org.data ++ '/' :: repo.data) ++ ".git".data)
          = ("git@" ++ host ++ ":" ++ (org ++ "/" ++ repo ++ ".git")).data := by
        simp [String.data_append]
      rw [this]
  · intro u hu
    unfold convert_https_to_ssh_url convertCore
    by_cases he : u.data = []
    · rw [if_pos he]
    · rw [if_neg he, if_pos hu]

/-- C9 witness: a concrete HTTPS URL without `.git`, one with `.git`, and an
SSH URL. -/
theorem convert_https_to_ssh_url_spec_witness :
    convert_https_to_ssh_url "https://github.com/user/repo" = "git@github.com:user/repo.git" ∧
    convert_https_to_ssh_url "git@github.com:user/repo.git" = "git@github.com:user/repo.git" ∧
    convert_https_to_ssh_url "" = "" := by
  have h := convert_https_to_ssh_url_spec "github.com" "user" "repo"
    (by decide) (by decide)
  refine ⟨?_, h.2.1 "git@github.com:user/repo.git" (by decide), h.2.2⟩
  have h1 := h.1
  rw [if_neg (by decide)] at h1
  exact h1

/-! ### `JobMonitor.submit_job` (job_monitor.py lines 153-175) and its caller
`submit_slurm_job_sync` (jobs.py lines 251-268) -/

/-- The literal part of the pattern `Submitted batch job (\d+)`. -/
def submitPat : List Char := "Submitted batch job ".data

/-- `re.search(r"Submitted batch job (\d+)", s)`: scan left to right for the
first position where the literal is followed by at least one digit; the group
is the maximal digit run there. -/
def searchSubmitted : List Char → Option (List Char)
  | [] => none
  | c :: rest =>
    if submitPat.isPrefixOf (c :: rest) = true ∧
       ((c :: rest).drop submitPat.length).takeWhile Char.isDigit ≠ []
    then some (((c :: rest).drop submitPat.length).takeWhile Char.isDigit)
    else searchSubmitted rest

theorem searchSubmitted_isSome_iff (s : List Char) :
    (searchSubmitted s).isSome = true ↔
      ∃ pre d post, s = pre ++ submitPat ++ d :: post ∧ d.isDigit = true := by
  induction s with
  | nil =>
    simp only [searchSubmitted, Option.isSome_none, Bool.false_eq_true, false_iff]
    rintro ⟨pre, d, post, hs, _⟩
    have : ([] : List Char).length = (pre ++ submitPat ++ d :: post).length := by rw [hs]
    simp [submitPat] at this
    omega
  | cons c rest ih =>
    constructor
    · intro h
      rw [searchSubmitted] at h
      split at h
      · rename_i hcond
        obtain ⟨suffix, hsuffix⟩ := isPrefixOfE.mp hcond.1
        have hdrop : ((c :: rest).drop submitPat.length) = suffix := by
          rw [← hsuffix, List.drop_left]
        rw [hdrop] at hcond
        cases suffix with
        | nil => simp at hcond
        | cons d tl =>
          cases hd : d.isDigit with
          | false =>
            exfalso
            apply hcond.2
            simp [List.takeWhile, hd]
          | true =>
            exact ⟨[], d, tl, by rw [← hsuffix]; rfl, hd⟩
      · obtain ⟨pre, d, post, hs, hd⟩ := ih.mp h
        exact ⟨c :: pre, d, post, by rw [hs]; rfl, hd⟩
    · rintro ⟨pre, d, post, hs, hd⟩
      cases pre with
      | nil =>
        simp only [List.nil_append] at hs
        rw [searchSubmitted]
        rw [if_pos ?_]
        · simp
        · rw [hs]
          constructor
          · exact isPrefixOfE.mpr (List.prefix_append _ _)
          · rw [List.drop_left]
            simp [List.takeWhile, hd]
      | cons c2 pre2 =>
        rw [List.cons_append, List.cons_append] at hs
        injection hs with h1 h2
        rw [searchSubmitted]
        split
        · simp
        · exact ih.mpr ⟨pre2, d, post, h2, hd⟩

/-- The sbatch command built at job_monitor.py line 163. -/
def sbatch_cmd (script_path : String) : String := "sbatch " ++ script_path

/-- `JobMonitor.submit_job`: `(slurm_job_id, error_message)`. -/
def submit_job (sshExec : String → String × String × Int) (script_path : String) :
    Option String × Option String :=
  let r := sshExec (sbatch_cmd script_path)
  if r.2.2 = 0 then
    match searchSubmitted r.1.data with
    | some ds => (some ⟨ds⟩, none)
    | none => (none, some ("Could not parse job ID from: " ++ r.1))
  else
    (none, some ("sbatch failed: " ++ r.2.1))

/-- The status assignment of `submit_slurm_job_sync` (jobs.py lines 251-268)
after `submit_job` returns. -/
def submit_outcome (sshExec : String → String × String × Int) (script_path : String)
    (job : JobRec) : JobRec :=
  match submit_job sshExec script_path with
  | (some jid, _) =>
    { job with slurm_job_id := jid, slurm_status := "PENDING", error_message := none }
  | (none, err) =>
    { job with slurm_status := "FAILED",
               error_message := some ("SLURM submission failed: " ++
                 (match err with
                  | some e => e
                  | none => "None")) }

/-- C10: submission yields a job id exactly when sbatch exits 0 and its stdout
contains `Submitted batch job ` followed by a digit; otherwise no id plus an
error message; the caller then marks the job `FAILED` recording that message,
and `PENDING` on success. -/
theorem submit_job_spec (sshExec : String → String × String × Int)
    (script_path : String) (job : JobRec) :
    ((submit_job sshExec script_path).1.isSome = true ↔
      (sshExec (sbatch_cmd script_path)).2.2 = 0 ∧
      ∃ pre d post, (sshExec (sbatch_cmd script_path)).1.data
          = pre ++ submitPat ++ d :: post ∧ d.isDigit = true) ∧
    ((submit_job sshExec script_path).1 = none →
      ∃ e, (submit_job sshExec script_path).2 = some e) ∧
    ((submit_job sshExec script_path).1.isSome = true →
      (submit_outcome sshExec script_path job).slurm_status = "PENDING" ∧
      (submit_outcome sshExec script_path job).error_message = none) ∧
    (∀ e, (submit_job sshExec script_path).1 = none →
      (submit_job sshExec script_path).2 = some e →
      (submit_outcome sshExec script_path job).slurm_status = "FAILED" ∧
      (submit_outcome sshExec script_path job).error_message =
        some ("SLURM submission failed: " ++ e)) := by
  refine ⟨?_, ?_, ?_, ?_⟩
  · unfold submit_job
    by_cases hz : (sshExec (sbatch_cmd script_path)).2.2 = 0
    · simp only [if_pos hz]
      cases hsr : searchSubmitted (sshExec (sbatch_cmd script_path)).1.data with
      | none =>
        simp only [Option.isSome_none]
        constructor
        · intro h; cases h
        · rintro ⟨-, pre, d, post, hs, hd⟩
          have := (searchSubmitted_isSome_iff _).mpr ⟨pre, d, post, hs, hd⟩
          rw [hsr] at this
          cases this
      | some ds =>
        simp only [Option.isSome_some, true_iff]
        refine ⟨hz, ?_⟩
        have := (searchSubmitted_isSome_iff (sshExec (sbatch_cmd script_path)).1.data).mp
          (by rw [hsr]; rfl)
        exact this
    · simp only [if_neg hz, Option.isSome_none, Bool.false_eq_true, false_iff]
      rintro ⟨h, -⟩
      exact hz h
  · unfold submit_job
    by_cases hz : (sshExec (sbatch_cmd script_path)).2.2 = 0
    · simp only [if_pos hz]
      cases hsr : searchSubmitted (sshExec (sbatch_cmd script_path)).1.data with
      | none => intro _; exact ⟨_, rfl⟩
      | some ds => intro h; cases h
    · intro _
      simp only [if_neg hz]
      exact ⟨_, rfl⟩
  · intro h
    unfold submit_outcome
    cases hsj : submit_job sshExec script_path with
    | mk jid? err =>
      rw [hsj] at h
      cases jid? with
      | none => simp at h
      | some jid => exact ⟨rfl, rfl⟩
  · intro e hnone hsome
    unfold submit_outcome
    cases hsj : submit_job sshExec script_path with
    | mk jid? err =>
      rw [hsj] at hnone hsome
      cases jid? with
      | some _ => simp at hnone
      | none =>
        cases err with
        | none => simp at hsome
        | some e2 =>
          simp only [Option.some.injEq] at hsome
          subst hsome
          exact ⟨rfl, rfl⟩

/-- An oracle whose sbatch succeeds with the standard output line. -/
def sbatchStub : String → String × String × Int :=
  fun _ => ("Submitted batch job 12345", "", 0)

/-- A job record before submission. -/
def job0 : JobRec :=
  { id := "j1", name := "train", slurm_job_id := "", slurm_status := "SUBMITTING",
    runtime_seconds := none, wandb_run_url := none, error_message := none }

/-- C10 witness: with the stub oracle the submission succeeds and the caller
marks the job `PENDING`. -/
theorem submit_job_spec_witness :
    (submit_job sbatchStub "run.sh").1.isSome = true ∧
    (submit_outcome sbatchStub "run.sh" job0).slurm_status = "PENDING" ∧
    (submit_outcome sbatchStub "run.sh" job0).error_message = none := by
  have h := submit_job_spec sbatchStub "run.sh" job0
  have hsome : (submit_job sbatchStub "run.sh").1.isSome = true := by decide
  exact ⟨hsome, (h.2.2.1 hsome).1, (h.2.2.1 hsome).2⟩

/-! ### `parse_gres` (check_gpu_availability.py lines 27-35)

The Python pattern is
`(?:gres/gpu|gpu):?([A-Za-z0-9_-]+)?[:=]?(\d+)?` applied with `finditer`.
Every element after the mandatory alternation is optional and greedy, so a
match at a position is computed by ordered greedy consumption: the longer
alternative first, one optional `:`, a maximal `[A-Za-z0-9_-]` run (group 1),
one optional `:`/`=`, a maximal digit run (group 2). `finditer` scans left to
right and resumes after each (never-empty) match. -/

/-- The character class `[A-Za-z0-9_-]`. -/
def gresWordChar (c : Char) : Bool :=
  c.isAlpha || c.isDigit || c = '_' || c = '-'

/-- Consume the optional `:?`. -/
def skipColon : List Char → List Char
  | [] => []
  | c :: t => if c = ':' then t else c :: t

/-- Consume the optional `[:=]?`. -/
def skipSep : List Char → List Char
  | [] => []
  | c :: t => if c = ':' || c = '=' then t else c :: t

/-- The optional tail of a match, after the `gres/gpu|gpu` alternation:
`(group1?, group2?, rest)`; group 1 is the maximal word run after an optional
`:`, group 2 the maximal digit run after a further optional `:`/`=`. -/
def matchTail (r1 : List Char) : Option (List Char) × Option (List Char) × List Char :=
  ((if (skipColon r1).takeWhile gresWordChar = [] then none
    else some ((skipColon r1).takeWhile gresWordChar)),
   (if (skipSep ((skipColon r1).dropWhile gresWordChar)).takeWhile Char.isDigit = [] then none
    else some ((skipSep ((skipColon r1).dropWhile gresWordChar)).takeWhile Char.isDigit)),
   (skipSep ((skipColon r1).dropWhile gresWordChar)).dropWhile Char.isDigit)

/-- One attempted match at the head of `s`. -/
def matchAt (s : List Char) : Option (Option (List Char) × Option (List Char) × List Char) :=
  if "gres/gpu".data.isPrefixOf s then some (matchTail (s.drop 8))
  else if "gpu".data.isPrefixOf s then some (matchTail (s.drop 3))
  else none

theorem bool_neg_of_eq_false {b : Bool} (h : b = false) : ¬(b = true) := by
  subst h
  exact Bool.false_ne_true

theorem skipColon_colon (t : List Char) : skipColon (':' :: t) = t := by
  simp [skipColon]

theorem skipColon_other {c : Char} (h : c ≠ ':') (t : List Char) :
    skipColon (c :: t) = c :: t := by
  simp [skipColon, h]

theorem skipSep_colon (t : List Char) : skipSep (':' :: t) = t := by
  simp [skipSep]

theorem skipSep_eq (t : List Char) : skipSep ('=' :: t) = t := by
  simp [skipSep]

theorem skipColon_length_le (l : List Char) : (skipColon l).length ≤ l.length := by
  cases l with
  | nil => exact Nat.le_refl _
  | cons c t =>
    rw [skipColon]
    split <;> simp

theorem skipSep_length_le (l : List Char) : (skipSep l).length ≤ l.length := by
  cases l with
  | nil => exact Nat.le_refl _
  | cons c t =>
    rw [skipSep]
    split <;> simp

theorem dropWhile_length_le (p : Char → Bool) :
    ∀ (l : List Char), (l.dropWhile p).length ≤ l.length := by
  intro l
  induction l with
  | nil => exact Nat.le_refl _
  | cons c t ih =>
    rw [List.dropWhile_cons]
    split
    · exact Nat.le_trans ih (by simp)
    · exact Nat.le_refl _

theorem matchTail_length (r1 : List Char) : (matchTail r1).2.2.length ≤ r1.length := by
  unfold matchTail
  simp only
  calc ((skipSep (List.dropWhile gresWordChar (skipColon r1))).dropWhile Char.isDigit).length
      ≤ (skipSep (List.dropWhile gresWordChar (skipColon r1))).length :=
        dropWhile_length_le _ _
    _ ≤ (List.dropWhile gresWordChar (skipColon r1)).length := skipSep_length_le _
    _ ≤ (skipColon r1).length := dropWhile_length_le _ _
    _ ≤ r1.length := skipColon_length_le _

theorem matchAt_length {s : List Char} {t : Option (List Char) × Option (List Char) × List Char}
    (h : matchAt s = some t) : t.2.2.length < s.length := by
  unfold matchAt at h
  split at h
  · rename_i hp
    cases h
    have h8 : 8 ≤ s.length := by
      have := (isPrefixOfE.mp hp).length_le
      simpa using this
    calc (matchTail (s.drop 8)).2.2.length ≤ (s.drop 8).length := matchTail_length _
      _ = s.length - 8 := by simp
      _ < s.length := by omega
  · split at h
    · rename_i hp
      cases h
      have h3 : 3 ≤ s.length := by
        have := (isPrefixOfE.mp hp).length_le
        simpa using this
      calc (matchTail (s.drop 3)).2.2.length ≤ (s.drop 3).length := matchTail_length _
        _ = s.length - 3 := by simp
        _ < s.length := by omega
    · cases h

/-- `finditer`: all matches of the pattern in `s`, left to right,
resuming after each match. -/
def findAll (s : List Char) : List (Option (List Char) × Option (List Char)) :=
  match s with
  | [] => []
  | c :: rest =>
    match hm : matchAt (c :: rest) with
    | some (g1, g2, r) => (g1, g2) :: findAll r
    | none => findAll rest
termination_by s.length
decreasing_by
  · exact matchAt_length hm
  · simp

/-- `parse_gres`: fold the matches into a dict keyed by the lowercased model
(or the literal key `gpu`), adding `int(count or 1)`. -/
def parse_gres (gres : String) : List (String × Nat) :=
  if gres = "" ∨ gres = "N/A" then []
  else
    (findAll gres.data).foldl
      (fun m g =>
        dictAdd m
          (match g.1 with
           | some mdl => pyLower ⟨mdl⟩
           | none => "gpu")
          (match g.2 with
           | some ds => natOfDigits ds
           | none => 1))
      []

theorem findAll_nil : findAll [] = [] := by
  rw [findAll]

theorem findAll_cons_some {c : Char} {rest : List Char}
    {g1 g2 : Option (List Char)} {r : List Char}
    (h : matchAt (c :: rest) = some (g1, g2, r)) :
    findAll (c :: rest) = (g1, g2) :: findAll r := by
  rw [findAll]
  split
  · rename_i g1' g2' r' hm
    rw [hm] at h
    simp only [Option.some.injEq, Prod.mk.injEq] at h
    obtain ⟨h1, h2, h3⟩ := h
    subst h1
    subst h2
    subst h3
    rfl
  · rename_i hm
    rw [hm] at h
    cases h

/-- A string whose text starts with `g` is neither empty nor `N/A`. -/
theorem parse_gres_guard {s : String} {l : List Char} (h : s.data = 'g' :: l) :
    ¬(s = "" ∨ s = "N/A") := by
  rintro (he | he)
  · subst he
    exact List.noConfusion h
  · subst he
    injection h with h1 _
    exact absurd h1 (by decide)

/-- The rendering `gpu:<model>:<count>` named by the spec's round-trip
property (spec section 8). -/
def renderGres (model : String) (count : Nat) : String :=
  "gpu:" ++ model ++ ":" ++ ⟨natToDigits count⟩

/-- C7: the token grammar maps `gpu` to `{gpu: 1}`, `gpu:<model>` to
`{model: 1}`, `gpu:<model>:<count>` to `{model: count}` (this is the
round trip on the rendered form), and the bare-count TRES form
`gres/gpu=<count>` to `{gpu: count}`. -/
theorem parse_gres_grammar :
    parse_gres "gpu" = [("gpu", 1)] ∧
    (∀ model : String, model.data ≠ [] →
      (∀ c ∈ model.data, gresWordChar c = true) → pyLower model = model →
      parse_gres ("gpu:" ++ model) = [(model, 1)]) ∧
    (∀ (model : String) (count : Nat), model.data ≠ [] →
      (∀ c ∈ model.data, gresWordChar c = true) → pyLower model = model →
      parse_gres (renderGres model count) = [(model, count)]) ∧
    (∀ count : Nat, parse_gres ("gres/gpu=" ++ ⟨natToDigits count⟩) = [("gpu", count)]) := by
  refine ⟨?_, ?_, ?_, ?_⟩
  · unfold parse_gres
    rw [if_neg (by decide)]
    have hd : ("gpu" : String).data = ['g', 'p', 'u'] := rfl
    rw [hd, findAll_cons_some
      (show matchAt ['g', 'p', 'u'] = some (none, none, []) from rfl), findAll_nil]
    rfl
  · intro model hne hword hlow
    have hdata : ("gpu:" ++ model).data = 'g' :: 'p' :: 'u' :: ':' :: model.data := by
      rw [String.data_append]
      rfl
    unfold parse_gres
    rw [if_neg (parse_gres_guard hdata), hdata]
    have htail : matchTail (':' :: model.data) = (some model.data, none, []) := by
      unfold matchTail
      rw [skipColon_colon, takeWhile_all hword, dropWhile_all hword]
      simp [skipSep, hne]
    have hmat : matchAt ('g' :: 'p' :: 'u' :: ':' :: model.data)
        = some (some model.data, none, []) := by
      rw [show matchAt ('g' :: 'p' :: 'u' :: ':' :: model.data)
          = some (matchTail (':' :: model.data)) from rfl, htail]
    rw [findAll_cons_some hmat, findAll_nil]
    simp only [List.foldl_cons, List.foldl_nil]
    rw [show (⟨model.data⟩ : String) = model from rfl, hlow]
    rfl
  · intro model count hne hword hlow
    obtain ⟨hdig, hdne, hval, -⟩ := natToDigits_spec count
    have hdata : (renderGres model count).data
        = 'g' :: 'p' :: 'u' :: ':' :: (model.data ++ ':' :: natToDigits count) := by
      unfold renderGres
      rw [String.data_append, String.data_append, String.data_append]
      simp
    unfold parse_gres
    rw [if_neg (parse_gres_guard hdata), hdata]
    have hsplit := takeWhile_append_stop hword (show gresWordChar ':' = false by decide)
      (natToDigits count)
    have htail : matchTail (':' :: (model.data ++ ':' :: natToDigits count))
        = (some model.data, some (natToDigits count), []) := by
      unfold matchTail
      rw [skipColon_colon, hsplit.1, hsplit.2, skipSep_colon,
        takeWhile_all hdig, dropWhile_all hdig]
      simp [hne, hdne]
    have hmat : matchAt ('g' :: 'p' :: 'u' :: ':' :: (model.data ++ ':' :: natToDigits count))
        = some (some model.data, some (natToDigits count), []) := by
      rw [show matchAt ('g' :: 'p' :: 'u' :: ':' :: (model.data ++ ':' :: natToDigits count))
          = some (matchTail (':' :: (model.data ++ ':' :: natToDigits count))) from rfl, htail]
    rw [findAll_cons_some hmat, findAll_nil]
    simp only [List.foldl_cons, List.foldl_nil]
    rw [show (⟨model.data⟩ : String) = model from rfl, hlow, hval]
    simp [dictAdd, dictGet, dictSet]
  · intro count
    obtain ⟨hdig, hdne, hval, -⟩ := natToDigits_spec count
    have hdata : (("gres/gpu=" ++ ⟨natToDigits count⟩ : String)).data
        = 'g' :: 'r' :: 'e' :: 's' :: '/' :: 'g' :: 'p' :: 'u' :: '=' :: natToDigits count := by
      rw [String.data_append]
      rfl
    unfold parse_gres
    rw [if_neg (parse_gres_guard hdata), hdata]
    have htail : matchTail ('=' :: natToDigits count)
        = (none, some (natToDigits count), []) := by
      unfold matchTail
      rw [skipColon_other (by decide) _]
      rw [show List.takeWhile gresWordChar ('=' :: natToDigits count) = [] by
            rw [List.takeWhile_cons]; simp [gresWordChar],
          show List.dropWhile gresWordChar ('=' :: natToDigits count)
              = '=' :: natToDigits count by
            rw [List.dropWhile_cons]; simp [gresWordChar],
          skipSep_eq, takeWhile_all hdig, dropWhile_all hdig]
      simp [hdne]
    have hmat : matchAt ('g' :: 'r' :: 'e' :: 's' :: '/' :: 'g' :: 'p' :: 'u' :: '='
        :: natToDigits count) = some (none, some (natToDigits count), []) := by
      rw [show matchAt ('g' :: 'r' :: 'e' :: 's' :: '/' :: 'g' :: 'p' :: 'u' :: '='
            :: natToDigits count) = some (matchTail ('=' :: natToDigits count)) from rfl,
        htail]
    rw [findAll_cons_some hmat, findAll_nil]
    simp only [List.foldl_cons, List.foldl_nil]
    rw [hval]
    simp [dictAdd, dictGet, dictSet]

/-- C7 witness: concrete instances of each accepted form, including the
round trip `gpu:a100:4`. -/
theorem parse_gres_grammar_witness :
    parse_gres (renderGres "a100" 4) = [("a100", 4)] ∧
    parse_gres ("gpu:" ++ "v100") = [("v100", 1)] ∧
    parse_gres ("gres/gpu=" ++ ⟨natToDigits 7⟩) = [("gpu", 7)] := by
  have h := parse_gres_grammar
  exact ⟨h.2.2.1 "a100" 4 (by decide) (by decide) (by decide),
         h.2.1 "v100" (by decide) (by decide) (by decide),
         h.2.2.2 7⟩

/-! ### Generic-allocation reconciliation (check_gpu_availability.py lines 64-82) -/

/-- The `if 'gpu' in alloc:` block: with specific models present the generic
entry is dropped as redundant; with a single advertised entry the generic
count is assigned to it; with several advertised entries the generic count is
distributed proportionally (integer division); the generic key is deleted in
each of these branches. -/
def reconcileAlloc (gres alloc : List (String × Nat)) : List (String × Nat) :=
  if "gpu" ∈ alloc.map Prod.fst then
    if alloc.filter (fun p => p.1 ≠ "gpu") ≠ [] then
      dictDel alloc "gpu"
    else
      match gres with
      | [] => alloc
      | [(m, _)] => dictDel (dictSet alloc m (dictGet alloc "gpu")) "gpu"
      | g1 :: g2 :: gr =>
        dictDel
          ((g1 :: g2 :: gr).foldl
            (fun a p => dictSet a p.1
              (dictGet a p.1 + dictGet alloc "gpu" * p.2 /
                (((g1 :: g2 :: gr).map Prod.snd).sum)))
            alloc) "gpu"
  else alloc

theorem foldl_dictSet_fresh (g s : Nat) :
    ∀ (l acc : List (String × Nat)),
      (l.map Prod.fst).Nodup →
      (∀ k ∈ l.map Prod.fst, k ∉ acc.map Prod.fst) →
      l.foldl (fun a p => dictSet a p.1 (dictGet a p.1 + g * p.2 / s)) acc
        = acc ++ l.map (fun p => (p.1, g * p.2 / s)) := by
  intro l
  induction l with
  | nil => intro acc _ _; simp
  | cons p tl ih =>
    intro acc hnd hfresh
    simp only [List.foldl_cons]
    have hp : p.1 ∉ acc.map Prod.fst := hfresh p.1 (by simp)
    rw [dictGet_not_mem hp, dictSet_not_mem _ hp, Nat.zero_add]
    simp only [List.map_cons, List.nodup_cons] at hnd
    have hfr2 : ∀ k ∈ tl.map Prod.fst, k ∉ (acc ++ [(p.1, g * p.2 / s)]).map Prod.fst := by
      intro k hk
      rw [List.map_append, List.mem_append]
      rintro (hka | hka)
      · exact hfresh k (by simp [hk]) hka
      · simp only [List.map_cons, List.map_nil, List.mem_singleton] at hka
        exact hnd.1 (hka ▸ hk)
    rw [ih (acc ++ [(p.1, g * p.2 / s)]) hnd.2 hfr2]
    simp

/-- C6: with an allocation carrying only a generic `gpu` count `g`: a node
advertising exactly one model `m` gets the whole count (`{m: g}`); a node
advertising several models gets `g * advertised(m) / total` for each model
`m`, remainder dropped, generic key removed. -/
theorem reconcileAlloc_generic (gres : List (String × Nat)) (g : Nat)
    (hnd : (gres.map Prod.fst).Nodup)
    (hng : "gpu" ∉ gres.map Prod.fst) :
    (∀ m t, gres = [(m, t)] → reconcileAlloc gres [("gpu", g)] = [(m, g)]) ∧
    (1 < gres.length →
      reconcileAlloc gres [("gpu", g)]
        = gres.map (fun p => (p.1, g * p.2 / (gres.map Prod.snd).sum))) := by
  constructor
  · intro m t hg
    subst hg
    have hm : m ≠ "gpu" := by
      simp only [List.map_cons, List.map_nil, List.mem_singleton] at hng
      exact fun he => hng he.symm
    unfold reconcileAlloc
    rw [if_pos (by simp), if_neg (by simp)]
    rw [show dictGet [("gpu", g)] "gpu" = g from rfl]
    show dictDel (dictSet [("gpu", g)] m g) "gpu" = [(m, g)]
    rw [show dictSet [("gpu", g)] m g = [("gpu", g), (m, g)] by
      rw [dictSet, if_neg (fun h => hm h.symm)]
      rfl]
    rw [dictDel, if_pos rfl]
  · intro hlen
    match gres, hnd, hng, hlen with
    | p1 :: p2 :: tl, hnd, hng, _ =>
      unfold reconcileAlloc
      rw [if_pos (by simp), if_neg (by simp)]
      have hfresh : ∀ k ∈ (p1 :: p2 :: tl).map Prod.fst,
          k ∉ ([("gpu", g)] : List (String × Nat)).map Prod.fst := by
        intro k hk
        simp only [List.map_cons, List.map_nil, List.mem_singleton]
        intro he
        exact hng (he ▸ hk)
      rw [show dictGet [("gpu", g)] "gpu" = g from rfl]
      show dictDel
          ((p1 :: p2 :: tl).foldl
            (fun a p => dictSet a p.1
              (dictGet a p.1 + g * p.2 / (((p1 :: p2 :: tl).map Prod.snd).sum)))
            [("gpu", g)]) "gpu"
        = (p1 :: p2 :: tl).map
            (fun p => (p.1, g * p.2 / (((p1 :: p2 :: tl).map Prod.snd).sum)))
      rw [foldl_dictSet_fresh g (((p1 :: p2 :: tl).map Prod.snd).sum)
        (p1 :: p2 :: tl) [("gpu", g)] hnd hfresh]
      rw [show ([("gpu", g)] : List (String × Nat)) ++
            (p1 :: p2 :: tl).map (fun p => (p.1, g * p.2 / (((p1 :: p2 :: tl).map Prod.snd).sum)))
          = ("gpu", g) :: (p1 :: p2 :: tl).map
              (fun p => (p.1, g * p.2 / (((p1 :: p2 :: tl).map Prod.snd).sum))) from rfl]
      rw [dictDel, if_pos rfl]

/-- C6 witness: a single-model node gets the whole generic count; a two-model
node splits 4 generic GPUs over advertised 2+6 as 1 and 3. -/
theorem reconcileAlloc_generic_witness :
    reconcileAlloc [("h100", 8)] [("gpu", 5)] = [("h100", 5)] ∧
    reconcileAlloc [("a100", 2), ("v100", 6)] [("gpu", 4)] = [("a100", 1), ("v100", 3)] := by
  have h1 := reconcileAlloc_generic [("h100", 8)] 5 (by decide) (by decide)
  have h2 := reconcileAlloc_generic [("a100", 2), ("v100", 6)] 4 (by decide) (by decide)
  constructor
  · exact h1.1 "h100" 8 rfl
  · exact (h2.2 (by decide)).trans (by decide)

/-! ### Node processing and aggregation
(check_gpu_availability.py lines 54-88 and 123-151) -/

theorem splitOnce_not_mem {sep : Char} :
    ∀ {l : List Char}, sep ∉ l → splitOnce sep l = none := by
  intro l
  induction l with
  | nil => intro _; rfl
  | cons c rest ih =>
    intro h
    have hc : ¬ c = sep := fun hh => h (hh ▸ List.mem_cons_self c rest)
    rw [splitOnce, if_neg hc, ih (fun hh => h (List.mem_cons_of_mem c hh))]

theorem pySplitAll_eq_none {sep : Char} {l : List Char}
    (h : splitOnce sep l = none) : pySplitAll sep l = [l] := by
  rw [pySplitAll]
  split
  · rfl
  · rename_i a b hm
    rw [hm] at h
    cases h

theorem pySplitAll_eq_some {sep : Char} {l a b : List Char}
    (h : splitOnce sep l = some (a, b)) : pySplitAll sep l = a :: pySplitAll sep b := by
  rw [pySplitAll]
  split
  · rename_i hm
    rw [hm] at h
    cases h
  · rename_i a2 b2 hm
    rw [hm] at h
    simp only [Option.some.injEq, Prod.mk.injEq] at h
    rw [h.1, h.2]

/-- One parsed node: the regex-extracted name and state, plus the raw
`Gres=`/`AllocTRES=` field texts. -/
structure NodeData where
  name : String
  state : String
  gres : String
  allocTres : String

/-- `EXCLUDE_STATES` (line 25). -/
def excludeStates : List String := ["DRAIN", "DRAINED", "DOWN"]

/-- `EXCLUDE_STATES & set(state.split('+'))` is non-empty (line 57). -/
def nodeExcluded (state : String) : Bool :=
  (pySplitAll '+' state.data).any (fun tok => excludeStates.contains ⟨tok⟩)

/-- Pointwise update of a `defaultdict` modelled as a total function. -/
def updateFn {α : Type} (f : String → α) (k : String) (v : α) : String → α :=
  fun x => if x = k then v else f x

/-- `f"{node_name}:{free}"` (line 88). -/
def renderFree (name : String) (free : Nat) : String :=
  name ++ ":" ++ ⟨natToDigits free⟩

/-- `int(n.split(':')[1])` (lines 100, 111, 131). -/
def entryCount (s : String) : Nat :=
  natOfDigits ((pySplitAll ':' s.data).getD 1 [])

/-- The body of the `for model, count in gres.items()` loop (lines 84-88):
bump the model total; record `node:free` when `count - alloc.get(model, 0)`
is positive. The subtraction is over `Int`, as in Python. -/
def processEntry (nodeName : String) (allocD : List (String × Nat))
    (acc : (String → Nat) × (String → List String)) (p : String × Nat) :
    (String → Nat) × (String → List String) :=
  (updateFn acc.1 p.1 (acc.1 p.1 + p.2),
   if 0 < (p.2 : Int) - (dictGet allocD p.1 : Int) then
     updateFn acc.2 p.1
       (acc.2 p.1 ++ [renderFree nodeName ((p.2 : Int) - (dictGet allocD p.1 : Int)).toNat])
   else acc.2)

/-- One node of the `for node_block in nodes` loop (lines 54-88): skip
excluded states, parse the advertised and allocated GRES, reconcile the
generic allocation, then fold the advertised entries. -/
def processNode (acc : (String → Nat) × (String → List String)) (node : NodeData) :
    (String → Nat) × (String → List String) :=
  if nodeExcluded node.state then acc
  else
    (parse_gres node.gres).foldl
      (processEntry node.name
        (reconcileAlloc (parse_gres node.gres) (parse_gres node.allocTres)))
      acc

/-- `total_gpus` and `free_gpus` after the whole node loop. -/
def processNodes (nodes : List NodeData) : (String → Nat) × (String → List String) :=
  nodes.foldl processNode (fun _ => 0, fun _ => [])

/-- `available` for a model in `print_json` (line 131): the sum of the parsed
per-node free counts. -/
def availableFor (fr : String → List String) (m : String) : Nat :=
  ((fr m).map entryCount).sum

theorem entryCount_renderFree {name : String} (h : (':' : Char) ∉ name.data) (f : Nat) :
    entryCount (renderFree name f) = f := by
  obtain ⟨-, -, hval, hcolon⟩ := natToDigits_spec f
  have hdata : (renderFree name f).data = name.data ++ ':' :: natToDigits f := by
    unfold renderFree
    rw [String.data_append, String.data_append]
    simp
  unfold entryCount
  rw [hdata, pySplitAll_eq_some (splitOnce_append h (natToDigits f)),
    pySplitAll_eq_none (splitOnce_not_mem hcolon)]
  exact hval

/-- The running invariant: per model, the summed recorded frees never exceed
the recorded total. -/
def invariantTF (acc : (String → Nat) × (String → List String)) : Prop :=
  ∀ m, availableFor acc.2 m ≤ acc.1 m

theorem processEntry_inv {nodeName : String} (hname : (':' : Char) ∉ nodeName.data)
    (allocD : List (String × Nat))
    {acc : (String → Nat) × (String → List String)} (hinv : invariantTF acc)
    (p : String × Nat) : invariantTF (processEntry nodeName allocD acc p) := by
  intro m
  unfold processEntry availableFor updateFn
  by_cases hm : m = p.1
  · subst hm
    by_cases hfree : 0 < (p.2 : Int) - (dictGet allocD p.1 : Int)
    · rw [if_pos hfree]
      dsimp only
      rw [if_pos (Eq.refl p.1), if_pos (Eq.refl p.1)]
      rw [List.map_append, List.sum_append]
      simp only [List.map_cons, List.map_nil, List.sum_cons, List.sum_nil]
      rw [entryCount_renderFree hname]
      have h1 := hinv p.1
      unfold availableFor at h1
      have h2 : ((p.2 : Int) - (dictGet allocD p.1 : Int)).toNat ≤ p.2 := by omega
      omega
    · rw [if_neg hfree]
      dsimp only
      rw [if_pos (Eq.refl p.1)]
      have h1 := hinv p.1
      unfold availableFor at h1
      omega
  · by_cases hfree : 0 < (p.2 : Int) - (dictGet allocD p.1 : Int)
    · rw [if_pos hfree]
      simp only [if_neg hm]
      exact hinv m
    · rw [if_neg hfree]
      simp only [if_neg hm]
      exact hinv m

theorem foldl_processEntry_inv {nodeName : String} (hname : (':' : Char) ∉ nodeName.data)
    (allocD : List (String × Nat)) :
    ∀ (l : List (String × Nat)) {acc : (String → Nat) × (String → List String)},
      invariantTF acc → invariantTF (l.foldl (processEntry nodeName allocD) acc) := by
  intro l
  induction l with
  | nil => intro acc h; exact h
  | cons p tl ih =>
    intro acc h
    rw [List.foldl_cons]
    exact ih (processEntry_inv hname allocD h p)

theorem processNode_inv {node : NodeData} (hname : (':' : Char) ∉ node.name.data)
    {acc : (String → Nat) × (String → List String)} (hinv : invariantTF acc) :
    invariantTF (processNode acc node) := by
  unfold processNode
  split
  · exact hinv
  · exact foldl_processEntry_inv hname _ _ hinv

theorem processNodes_inv :
    ∀ (nodes : List NodeData), (∀ node ∈ nodes, (':' : Char) ∉ node.name.data) →
    ∀ {acc : (String → Nat) × (String → List String)}, invariantTF acc →
      invariantTF (nodes.foldl processNode acc) := by
  intro nodes
  induction nodes with
  | nil => intro _ acc h; exact h
  | cons node tl ih =>
    intro hn acc h
    rw [List.foldl_cons]
    exact ih (fun n hmem => hn n (List.mem_cons_of_mem node hmem))
      (processNode_inv (hn node (List.mem_cons_self node tl)) h)

theorem foldl_processEntry_entries {nodeName : String}
    (hname : (':' : Char) ∉ nodeName.data) (allocD : List (String × Nat))
    (B : String → Nat) :
    ∀ (l : List (String × Nat)) (acc : (String → Nat) × (String → List String))
      (m : String),
      (∀ e ∈ acc.2 m, 0 < entryCount e ∧ entryCount e ≤ B m) →
      (∀ p ∈ l, p.1 = m → p.2 ≤ B m) →
      ∀ e ∈ (l.foldl (processEntry nodeName allocD) acc).2 m,
        0 < entryCount e ∧ entryCount e ≤ B m := by
  intro l
  induction l with
  | nil => intro acc m hacc _; exact hacc
  | cons p tl ih =>
    intro acc m hacc hl
    rw [List.foldl_cons]
    refine ih (processEntry nodeName allocD acc p) m ?_
      (fun q hq hqm => hl q (List.mem_cons_of_mem p hq) hqm)
    intro e he
    unfold processEntry updateFn at he
    by_cases hfree : 0 < (p.2 : Int) - (dictGet allocD p.1 : Int)
    · rw [if_pos hfree] at he
      simp only at he
      by_cases hm : m = p.1
      · rw [if_pos hm] at he
        rcases List.mem_append.mp he with he | he
        · exact hacc e (by rw [hm]; exact he)
        · simp only [List.mem_singleton] at he
          subst he
          rw [entryCount_renderFree hname]
          constructor
          · omega
          · have hle : p.2 ≤ B m := hl p (List.mem_cons_self p tl) hm.symm
            omega
      · rw [if_neg hm] at he
        exact hacc e he
    · rw [if_neg hfree] at he
      simp only at he
      exact hacc e he

/-- C8: per model, the aggregated available never exceeds the aggregated
total (so `in_use = total - available` is non-negative); and on any single
node with distinct advertised models, each recorded free count is positive
and bounded by that node advertised count for the model. -/
theorem gpu_inventory_bounds (nodes : List NodeData)
    (hn : ∀ node ∈ nodes, (':' : Char) ∉ node.name.data) :
    (∀ m, availableFor (processNodes nodes).2 m ≤ (processNodes nodes).1 m) ∧
    (∀ m, 0 ≤ ((processNodes nodes).1 m : Int) - (availableFor (processNodes nodes).2 m : Int)) ∧
    (∀ (name : String) (gresD allocD : List (String × Nat)) (m : String),
      (':' : Char) ∉ name.data → (gresD.map Prod.fst).Nodup →
      ∀ e ∈ (gresD.foldl (processEntry name allocD) (fun _ => 0, fun _ => [])).2 m,
        0 < entryCount e ∧ entryCount e ≤ dictGet gresD m) := by
  have hmain : invariantTF (processNodes nodes) := by
    unfold processNodes
    exact processNodes_inv nodes hn (fun m => by simp [availableFor])
  refine ⟨hmain, fun m => by have := hmain m; omega, ?_⟩
  intro name gresD allocD m hname hnd e he
  refine foldl_processEntry_entries hname allocD (dictGet gresD) gresD
    (fun _ => 0, fun _ => []) m (by simp) ?_ e he
  intro p hp hpm
  have : dictGet gresD m = p.2 := by
    refine dictGet_of_mem_nodup hnd ?_
    rw [← hpm]
    exact hp
  omega

/-- Example nodes: one idle node with a partially allocated GPU. -/
def demoNodes : List NodeData :=
  [{ name := "node1", state := "IDLE", gres := "gpu:a100:4", allocTres := "gres/gpu=1" }]

/-- C8 witness: the aggregate bound instantiated on a concrete snapshot. -/
theorem gpu_inventory_bounds_witness :
    availableFor (processNodes demoNodes).2 "a100" ≤ (processNodes demoNodes).1 "a100" ∧
    0 ≤ ((processNodes demoNodes).1 "a100" : Int)
        - (availableFor (processNodes demoNodes).2 "a100" : Int) := by
  have h := gpu_inventory_bounds demoNodes (by decide)
  exact ⟨h.1 "a100", h.2.1 "a100"⟩

end MissionControl
